import Mathlib

/-!
Verification development for the rendering core of the `tui` crate:
a character-grid framebuffer (`src/buffer.rs`), a layout calculus over
rectangular areas and lines (`src/lib.rs`), a style/modifier model
(`src/style.rs`) and the buffer-rotation step of the draw loop
(`src/terminal.rs`).

Shallow embedding conventions:
* Unicode scalar values are natural numbers (`UChar`); the display-width
  oracle `char.width().unwrap_or(0)` comes from the external
  `unicode_width` crate, so definitions and theorems are parametric in a
  width function `WidthFn`.  `wModel` is one concrete sample oracle used
  for closed witnesses.
* `usize` arithmetic is `Nat`; the `u16` casts inside `Buffer::diff` are
  modelled by explicit `% 2 ^ 16`.
* `crossterm::style::Color` is an external opaque enum; only `Reset` and
  "some other color" matter, so it is modelled with two constructors.
* Rust's `fmt::Display` drives drawing through repeated
  `Writer::write_str` calls; a displayed text is therefore modelled as a
  list of chunks (`List (List UChar)`), each chunk being one `write_str`
  call.  A plain `&str` argument is a single chunk.
* `debug_assert!` contract violations in `index_of` / `pos_of` are
  modelled by an `Option` result: `none` is the contract-violation
  signal.
* `Canvas::wrap` consumes word-boundary segments produced by the external
  `unicode_segmentation` crate; the input is modelled as the list of
  segments.  The Lean `Canvas.wrap` additionally returns the list of
  `(segment, line-state)` pairs it actually drew — a ghost trace used
  only to state theorems; the canvas/buffer components are exactly the
  Rust computation.
-/

namespace Tui

/-- A Unicode scalar value (Rust `char`). -/
abbrev UChar := Nat

/-- Display-width oracle: `c.width().unwrap_or(0)` from the external
`unicode_width` crate. -/
abbrev WidthFn := UChar → Nat

/-- A sample display-width oracle used for concrete witnesses: control
characters have width 0, characters below U+1100 width 1, the rest
width 2 (e.g. CJK such as `コ` = U+30B3 = 12467). -/
def wModel : WidthFn := fun c => if c < 32 then 0 else if c < 4352 then 1 else 2

/-- `crossterm::style::Color` (external): only the shape matters. -/
inductive Color where
  | reset
  | named (n : Nat)
deriving DecidableEq

/-- `Modifier` is a `u8` bitset (`bitflags!` in `src/style.rs`):
BOLD = 1, DIM = 2, ITALIC = 4, UNDERLINED = 8, REVERSED = 16,
CROSSED_OUT = 32. -/
abbrev Modifier := Nat

/-- `Style` from `src/style.rs`. -/
structure Style where
  fg : Option Color
  bg : Option Color
  modifier : Modifier
deriving DecidableEq

/-- `style::none()` / `Style::default()`. -/
def Style.noStyle : Style := ⟨Option.none, Option.none, 0⟩

/-- `Cell` from `src/buffer.rs`. -/
structure Cell where
  char : UChar
  fg : Color
  bg : Color
  modifier : Modifier
deriving DecidableEq

/-- `Cell::default()`: a space with reset colors and empty modifiers. -/
def defaultCell : Cell := ⟨32, .reset, .reset, 0⟩

/-- `Cell::set_char`. -/
def Cell.set_char (c : Cell) (ch : UChar) : Cell := { c with char := ch }

/-- `Cell::set_style`: an absent color channel leaves the cell's channel
untouched; the modifier set is fully replaced. -/
def Cell.set_style (c : Cell) (s : Style) : Cell :=
  { c with fg := s.fg.getD c.fg, bg := s.bg.getD c.bg, modifier := s.modifier }

/-- `Cell::reset`: char to space, both colors to `Reset`, modifiers
cleared. -/
def Cell.resetCell (_ : Cell) : Cell := ⟨32, .reset, .reset, 0⟩

/-- `Buffer` from `src/buffer.rs`. -/
structure Buffer where
  nb_row : Nat
  nb_col : Nat
  content : List Cell
  cursor_pos : Option (Nat × Nat)
deriving DecidableEq

/-- `Buffer::empty` (via `Buffer::filled` with the default cell). -/
def Buffer.empty (nb_col nb_row : Nat) : Buffer :=
  ⟨nb_row, nb_col, List.replicate (nb_col * nb_row) defaultCell, Option.none⟩

/-- `Buffer::index_of` with its `debug_assert!`: `none` models the
contract-violation panic on out-of-bounds coordinates. -/
def Buffer.index_of (b : Buffer) (x y : Nat) : Option Nat :=
  if x < b.nb_col ∧ y < b.nb_row then some (y * b.nb_col + x) else Option.none

/-- `Buffer::pos_of` with its `debug_assert!`: `none` models the
contract-violation panic on an out-of-bounds index. -/
def Buffer.pos_of (b : Buffer) (i : Nat) : Option (Nat × Nat) :=
  if i < b.content.length then some (i % b.nb_col, i / b.nb_col) else Option.none

/-- `Buffer::char_at`: `self.content[index].set_char(c).set_style(style)`.
(`List.set` is a no-op out of bounds; in the Rust code the index is
always in bounds where `char_at` is called.) -/
def Buffer.char_at (b : Buffer) (index : Nat) (c : UChar) (st : Style) : Buffer :=
  { b with
    content := b.content.set index
      (((b.content.getD index defaultCell).set_char c).set_style st) }

/-- `Buffer::reset`: take the cursor and reset every cell. -/
def Buffer.buf_reset (b : Buffer) : Buffer :=
  { b with cursor_pos := Option.none, content := b.content.map Cell.resetCell }

/-- The `i as u16` cast in `Buffer::diff`. -/
def u16cast (n : Nat) : Nat := n % 65536

/-- `i as u16 % width as u16` from `Buffer::diff`. -/
def u16x (ncol i : Nat) : Nat := u16cast i % u16cast ncol

/-- `i as u16 / width as u16` from `Buffer::diff`. -/
def u16y (ncol i : Nat) : Nat := u16cast i / u16cast ncol

/-- The loop of `Buffer::diff`: `next` and `prev` are the zipped cell
streams (`next_buffer.iter().zip(previous_buffer.iter())` stops at the
shorter list), `i` the enumeration index and `skip` the wide-character
skip flag. -/
def diffGo (w : WidthFn) (ncol : Nat) : Nat → Bool → List Cell → List Cell →
    List (Nat × Nat × Cell)
  | i, skip, cur :: next, prevC :: prev =>
      (cond (decide (cur ≠ prevC) && !skip)
        [(u16x ncol i, u16y ncol i, cur)] [])
        ++ diffGo w ncol (i + 1) (decide (1 < w cur.char)) next prev
  | _, _, _, _ => []

/-- `Buffer::diff`: `self` is the previous buffer, `other` the next one;
`width` is `self.nb_col`. -/
def Buffer.diff (w : WidthFn) (self other : Buffer) : List (Nat × Nat × Cell) :=
  diffGo w self.nb_col 0 false other.content self.content

/-- Position-wise emission predicate for `Buffer::diff` (used to state
its characterization): position `j` produces an entry iff the cells
differ there and the previous next-buffer cell was not wide (for `j = 0`,
iff the initial skip flag is clear). -/
def emitB (w : WidthFn) (next prev : List Cell) (skip0 : Bool) : Nat → Bool
  | 0 => decide (next.getD 0 defaultCell ≠ prev.getD 0 defaultCell) && !skip0
  | j + 1 => decide (next.getD (j + 1) defaultCell ≠ prev.getD (j + 1) defaultCell)
      && decide (w (next.getD j defaultCell).char ≤ 1)

/-- The state of a `Line` (`src/lib.rs`): start index into the buffer and
remaining width.  The buffer itself is threaded separately. -/
structure LineSt where
  index : Nat
  remaining : Nat
deriving DecidableEq

/-- `Writer::write_str` (`src/lib.rs` lines 66-84), one chunk: zero-width
characters are skipped, a character wider than the remaining space breaks
out of the loop, otherwise the character is written and the state
advances (`saturating_sub` is `Nat` subtraction). -/
def writeStr (w : WidthFn) (st : Style) : List UChar → LineSt → Buffer → LineSt × Buffer
  | [], l, b => (l, b)
  | c :: cs, l, b =>
      if w c = 0 then writeStr w st cs l b
      else if l.remaining < w c then (l, b)
      else writeStr w st cs ⟨l.index + w c, l.remaining - w c⟩ (b.char_at l.index c st)

/-- `Line::draw`: `write_fmt` feeds the display text to
`Writer::write_str` one chunk at a time; the `Line` state persists across
chunks. -/
def LineSt.draw (w : WidthFn) (st : Style) (chunks : List (List UChar))
    (l : LineSt) (b : Buffer) : LineSt × Buffer :=
  chunks.foldl (fun p s => writeStr w st s p.1 p.2) (l, b)

/-- `str::width()` of a chunk (external `unicode_width`): the sum of its
characters' widths. -/
def segWidth (w : WidthFn) (s : List UChar) : Nat := (s.map w).sum

/-- The free function `width` (`src/lib.rs` lines 45-58): the `Measure`
writer accumulates `s.width()` over all chunks of the display text. -/
def dispWidth (w : WidthFn) (chunks : List (List UChar)) : Nat :=
  (chunks.map (segWidth w)).sum

/-- `Line::rdraw`: measure the text, clamp to the remaining width, draw
through a dummy sub-line at the tail of the remaining space, then deduct
the clamped width. -/
def LineSt.rdraw (w : WidthFn) (st : Style) (chunks : List (List UChar))
    (l : LineSt) (b : Buffer) : LineSt × Buffer :=
  let fit := min (dispWidth w chunks) l.remaining
  let res := LineSt.draw w st chunks ⟨l.index + l.remaining - fit, fit⟩ b
  (⟨l.index, l.remaining - fit⟩, res.2)

/-- `Line::fit`: strict comparison of the text's width with the remaining
space. -/
def LineSt.fit (w : WidthFn) (l : LineSt) (s : List UChar) : Bool :=
  decide (segWidth w s < l.remaining)

/-- Whether `Writer::write_str` consumes a whole chunk without hitting
the break (each visible character fits as it is reached), given the
remaining width at entry. -/
def writeAll (w : WidthFn) : List UChar → Nat → Bool
  | [], _ => true
  | c :: cs, r =>
      if w c = 0 then writeAll w cs r
      else if r < w c then false
      else writeAll w cs (r - w c)

/-- A drawing call on a `Line`, for stating properties of arbitrary
`draw`/`rdraw` sequences. -/
inductive LineOp where
  | draw (chunks : List (List UChar)) (st : Style)
  | rdraw (chunks : List (List UChar)) (st : Style)

/-- Run one `LineOp`. -/
def applyOp (w : WidthFn) (op : LineOp) (l : LineSt) (b : Buffer) : LineSt × Buffer :=
  match op with
  | .draw ch st => LineSt.draw w st ch l b
  | .rdraw ch st => LineSt.rdraw w st ch l b

/-- Run a sequence of `LineOp`s. -/
def applyOps (w : WidthFn) : List LineOp → LineSt → Buffer → LineSt × Buffer
  | [], l, b => (l, b)
  | op :: ops, l, b =>
      let r := applyOp w op l b
      applyOps w ops r.1 r.2

/-- `Area` from `src/lib.rs`. -/
structure Area where
  x : Nat
  y : Nat
  w : Nat
  h : Nat
deriving DecidableEq

/-- `Area::consume`: remove the top line. -/
def Area.consume (a : Area) : Area :=
  if 0 < a.h then { a with y := a.y + 1, h := a.h - 1 } else a

/-- `Canvas`: a working rectangle plus the buffer it borrows. -/
structure Canvas where
  area : Area
  buf : Buffer
deriving DecidableEq

/-- `Canvas::top`: reserve the first row of the working rectangle and
return a `Line` over it (index computed through `Buffer::index_of`, whose
`debug_assert!` holds whenever the area lies inside the buffer), or a
zero-width line if no row remains. -/
def Canvas.top (c : Canvas) : LineSt × Canvas :=
  if 0 < c.area.h then
    (⟨c.area.y * c.buf.nb_col + c.area.x, c.area.w⟩, { c with area := c.area.consume })
  else (⟨0, 0⟩, c)

/-- Inner loop of `Canvas::wrap`: peek the next segment; if it fits
(strictly) draw it on the current line, else stop.  The fourth component
is a ghost trace of the `(segment, line-state)` pairs actually drawn;
the first three components are exactly the Rust computation (remaining
segments, line state, buffer). -/
def wrapInner (w : WidthFn) (st : Style) :
    List (List UChar) → LineSt → Buffer →
      List (List UChar) × LineSt × Buffer × List (List UChar × LineSt)
  | [], l, b => ([], l, b, [])
  | s :: rest, l, b =>
      if segWidth w s < l.remaining then
        let r := writeStr w st s l b
        let q := wrapInner w st rest r.1 r.2
        (q.1, q.2.1, q.2.2.1, (s, l) :: q.2.2.2)
      else (s :: rest, l, b, [])

/-- Outer loop of `Canvas::wrap`: `for _ in 0..self.area.h`, where the
bound is the height at entry (`fuel`).  Each iteration takes the top
line; if the segments are exhausted the whole wrap returns.  The second
component is the ghost trace. -/
def wrapGo (w : WidthFn) (st : Style) :
    Nat → List (List UChar) → Canvas → Canvas × List (List UChar × LineSt)
  | 0, _, c => (c, [])
  | fuel + 1, segs, c =>
      let t := c.top
      let q := wrapInner w st segs t.1 t.2.buf
      let c' : Canvas := { area := t.2.area, buf := q.2.2.1 }
      if q.1.isEmpty then (c', q.2.2.2)
      else
        let r := wrapGo w st fuel q.1 c'
        (r.1, q.2.2.2 ++ r.2)

/-- `Canvas::wrap` on a pre-split list of word-boundary segments
(the splitting itself is the external `unicode_segmentation` crate).
Also returns the ghost trace of performed draws. -/
def Canvas.wrap (w : WidthFn) (st : Style) (segs : List (List UChar)) (c : Canvas) :
    Canvas × List (List UChar × LineSt) :=
  wrapGo w st c.area.h segs c

/-- `Split` from `src/lib.rs`. -/
structure Split where
  first : Area
  second : Area
deriving DecidableEq

/-- `SplitBuilder` from `src/lib.rs`. -/
structure SplitBuilder where
  area : Area
  vertical : Bool
  gap : Nat
deriving DecidableEq

/-- `SplitBuilder::apply` (`src/lib.rs` lines 274-305). -/
def SplitBuilder.apply (s : SplitBuilder) : Split :=
  if s.vertical then
    ⟨{ s.area with h := (s.area.h - s.gap) / 2 },
     { s.area with
        y := s.area.y + s.gap + (s.area.h - s.gap) / 2,
        h := (s.area.h - s.gap) / 2 + (s.area.h - s.gap) % 2 }⟩
  else
    ⟨{ s.area with w := (s.area.w - s.gap) / 2 },
     { s.area with
        x := s.area.x + s.gap + (s.area.w - s.gap) / 2,
        w := (s.area.w - s.gap) / 2 + (s.area.w - s.gap) % 2 }⟩

/-- Fuel-bounded `trailing_zeros` (the fuel `n` itself always suffices
for `n > 0`). -/
def ctzF : Nat → Nat → Nat
  | 0, _ => 0
  | fuel + 1, n => if n % 2 = 1 then 0 else ctzF fuel (n / 2) + 1

/-- `1 << self.0.bits().trailing_zeros()` from `IterModifier::next`. -/
def lowBit (n : Nat) : Nat := 2 ^ ctzF n n

/-- Fuel-bounded loop of `IterModifier`: extract the lowest set bit and
remove it (`bits &= !r` on a `u8`) until the set is empty.  Each step
removes a set bit, so fuel `n` suffices. -/
def iterBitsF : Nat → Nat → List Nat
  | 0, _ => []
  | fuel + 1, n =>
      if n = 0 then []
      else lowBit n :: iterBitsF fuel (Nat.land n (255 ^^^ lowBit n))

/-- The full enumeration produced by `IterModifier` on bits `n`. -/
def iterBits (n : Nat) : List Nat := iterBitsF n n

/-- The terminal "set attribute" instructions emitted by
`Modifier::diff` (`crossterm::style::Attribute`). -/
inductive Attr where
  | noReverse | normalIntensity | noItalic | noUnderline | notCrossedOut
  | reverseA | boldA | italicA | underlinedA | dimA | crossedOutA
deriving DecidableEq

/-- The `removed` match of `Modifier::diff`; `none` models the
`unreachable!` arm. -/
def removedAttr : Nat → Option Attr
  | 16 => some .noReverse
  | 1 => some .normalIntensity
  | 4 => some .noItalic
  | 8 => some .noUnderline
  | 2 => some .normalIntensity
  | 32 => some .notCrossedOut
  | _ => Option.none

/-- The `added` match of `Modifier::diff`; `none` models the
`unreachable!` arm. -/
def addedAttr : Nat → Option Attr
  | 16 => some .reverseA
  | 1 => some .boldA
  | 4 => some .italicA
  | 8 => some .underlinedA
  | 2 => some .dimA
  | 32 => some .crossedOutA
  | _ => Option.none

/-- bitflags `Sub`: `self.bits & !other.bits` on `u8`. -/
def msub (a b : Modifier) : Modifier := Nat.land a (255 ^^^ b)

/-- `Modifier::diff`: enumerate `from - to` emitting one disable
instruction per bit, then `to - from` emitting one enable instruction
per bit; `none` would mean a hit of the `unreachable!` arm. -/
def Modifier.diff (f t : Modifier) : Option (List Attr) := do
  let rem ← (iterBits (msub f t)).mapM removedAttr
  let add ← (iterBits (msub t f)).mapM addedAttr
  pure (rem ++ add)

/-- The spec's description of bit enumeration: the set bits of a `u8`
modifier set (only the six known flags), in ascending bit order.
This definition follows the spec's words, for comparison with
`iterBits`. -/
def specBits (n : Nat) : List Nat :=
  (List.range 6).filterMap (fun k => if n.testBit k then some (2 ^ k) else Option.none)

/-- The state of `Terminal` that the buffer-rotation step touches
(`src/terminal.rs`). -/
structure Terminal where
  draw_buffer : Buffer
  prev_buffer : Buffer
deriving DecidableEq

/-- The pure content of `Terminal::apply_change`: compute the diff of the
previous buffer against the draw buffer (the emitted changes are the
first component), swap the buffers, and reset the new draw buffer. -/
def Terminal.apply_change (w : WidthFn) (t : Terminal) :
    List (Nat × Nat × Cell) × Terminal :=
  (Buffer.diff w t.prev_buffer t.draw_buffer,
   { draw_buffer := t.prev_buffer.buf_reset, prev_buffer := t.draw_buffer })

/-- Fixed concrete objects used by counterexamples and witnesses. -/
def cellA : Cell := ⟨97, .reset, .reset, 0⟩

/-- A one-column buffer with `2 ^ 16 + 1` rows, all blank: the previous
buffer of the 16-bit-wraparound scenario. -/
def bigPrev : Buffer := ⟨65537, 1, List.replicate 65537 defaultCell, Option.none⟩

/-- Same dimensions as `bigPrev`, differing exactly at cell index
`2 ^ 16`. -/
def bigNext : Buffer :=
  ⟨65537, 1, List.replicate 65536 defaultCell ++ [cellA], Option.none⟩

/-- A 3x2 canvas over a blank 3x2 buffer. -/
def cexCanvas : Canvas := ⟨⟨0, 0, 3, 2⟩, Buffer.empty 3 2⟩

/-- Concrete 2x1 buffers for the C1 witness: blank previous buffer. -/
def bufPrevW : Buffer := Buffer.empty 2 1

/-- Next buffer for the C1 witness, whose first cell is `a`. -/
def bufNextW : Buffer := ⟨1, 2, [cellA, defaultCell], Option.none⟩

/-- A line confined to one buffer row: its extent does not cross the end
of the row containing its start index. -/
def InRow (ncol : Nat) (l : LineSt) : Prop :=
  l.index + l.remaining ≤ (l.index / ncol) * ncol + ncol

/-- `List.set` does not touch other positions (under `getD`). -/
theorem getD_set_ne {α : Type} : ∀ (l : List α) (i j : Nat) (v d : α), i ≠ j →
    (l.set i v).getD j d = l.getD j d
  | [], _, _, _, _, _ => rfl
  | _ :: _, 0, 0, _, _, h => absurd rfl h
  | _ :: _, 0, _ + 1, _, _, _ => rfl
  | _ :: _, _ + 1, 0, _, _, _ => rfl
  | _ :: t, i + 1, j + 1, v, d, h =>
      getD_set_ne t i j v d (fun hh => h (by rw [hh]))

/-- `Writer::write_str` preserves the column count of the buffer. -/
theorem writeStr_ncol (w : WidthFn) (st : Style) (s : List UChar) :
    ∀ (l : LineSt) (b : Buffer), (writeStr w st s l b).2.nb_col = b.nb_col := by
  induction s with
  | nil => intro l b; simp [writeStr]
  | cons c cs ih =>
      intro l b
      by_cases h0 : w c = 0
      · simpa [writeStr, h0] using ih l b
      · by_cases h1 : l.remaining < w c
        · simp [writeStr, h0, h1]
        · simpa [writeStr, h0, h1] using
            ih ⟨l.index + w c, l.remaining - w c⟩ (b.char_at l.index c st)

/-- `Writer::write_str` preserves `index + remaining`, never moves the
index backwards, and never increases the remaining width. -/
theorem writeStr_state (w : WidthFn) (st : Style) (s : List UChar) :
    ∀ (l : LineSt) (b : Buffer),
      (writeStr w st s l b).1.index + (writeStr w st s l b).1.remaining
          = l.index + l.remaining ∧
      l.index ≤ (writeStr w st s l b).1.index ∧
      (writeStr w st s l b).1.remaining ≤ l.remaining := by
  induction s with
  | nil => intro l b; simp [writeStr]
  | cons c cs ih =>
      intro l b
      by_cases h0 : w c = 0
      · simpa [writeStr, h0] using ih l b
      · by_cases h1 : l.remaining < w c
        · simp [writeStr, h0, h1]
        · obtain ⟨hA, hB, hC⟩ := ih ⟨l.index + w c, l.remaining - w c⟩ (b.char_at l.index c st)
          simp only at hA hB hC
          simp only [writeStr, if_neg h0, if_neg h1]
          refine ⟨?_, ?_, ?_⟩ <;> omega

/-- `Writer::write_str` only modifies buffer cells inside the line's
extent `[index, index + remaining)`. -/
theorem writeStr_within (w : WidthFn) (st : Style) (s : List UChar) :
    ∀ (l : LineSt) (b : Buffer) (j : Nat),
      (writeStr w st s l b).2.content.getD j defaultCell ≠ b.content.getD j defaultCell →
      l.index ≤ j ∧ j < l.index + l.remaining := by
  induction s with
  | nil => intro l b j h; simp [writeStr] at h
  | cons c cs ih =>
      intro l b j h
      by_cases h0 : w c = 0
      · exact ih l b j (by simpa [writeStr, h0] using h)
      · by_cases h1 : l.remaining < w c
        · simp [writeStr, h0, h1] at h
        · simp only [writeStr, if_neg h0, if_neg h1] at h
          by_cases hmid : (writeStr w st cs ⟨l.index + w c, l.remaining - w c⟩
              (b.char_at l.index c st)).2.content.getD j defaultCell
              = (b.char_at l.index c st).content.getD j defaultCell
          · have hcb : (b.char_at l.index c st).content.getD j defaultCell
                ≠ b.content.getD j defaultCell := by rw [← hmid]; exact h
            by_cases hje : j = l.index
            · have hwc : 0 < w c := Nat.pos_of_ne_zero h0
              omega
            · exfalso
              apply hcb
              exact getD_set_ne _ _ _ _ _ (fun hh => hje hh.symm)
          · have hb := ih ⟨l.index + w c, l.remaining - w c⟩ (b.char_at l.index c st) j hmid
            simp only at hb
            omega

/-- A chunk whose total width fits in the remaining space is consumed
entirely: the index advances by exactly the chunk's width. -/
theorem writeStr_consumes (w : WidthFn) (st : Style) (s : List UChar) :
    ∀ (l : LineSt) (b : Buffer), segWidth w s ≤ l.remaining →
      (writeStr w st s l b).1
        = ⟨l.index + segWidth w s, l.remaining - segWidth w s⟩ := by
  induction s with
  | nil => intro l b _; simp [writeStr, segWidth]
  | cons c cs ih =>
      intro l b h
      have hsw : segWidth w (c :: cs) = w c + segWidth w cs := by simp [segWidth]
      by_cases h0 : w c = 0
      · rw [hsw] at h ⊢
        rw [h0] at h ⊢
        simpa [writeStr, h0] using ih l b (by omega)
      · have h1 : ¬ l.remaining < w c := by rw [hsw] at h; omega
        simp only [writeStr, if_neg h0, if_neg h1]
        rw [ih ⟨l.index + w c, l.remaining - w c⟩ (b.char_at l.index c st)
          (by rw [hsw] at h; simp; omega)]
        simp only [LineSt.mk.injEq, hsw]
        omega

/-- Removing a zero-width character from a chunk does not change what
`write_str` does. -/
theorem writeStr_skip_zero_width (w : WidthFn) (st : Style) (c : UChar) (s2 : List UChar)
    (h : w c = 0) : ∀ (s1 : List UChar) (l : LineSt) (b : Buffer),
    writeStr w st (s1 ++ c :: s2) l b = writeStr w st (s1 ++ s2) l b := by
  intro s1
  induction s1 with
  | nil => intro l b; simp [writeStr, h]
  | cons x xs ih =>
      intro l b
      by_cases h0 : w x = 0
      · simpa [writeStr, h0] using ih l b
      · by_cases h1 : l.remaining < w x
        · simp [writeStr, h0, h1]
        · simpa [writeStr, h0, h1] using
            ih ⟨l.index + w x, l.remaining - w x⟩ (b.char_at l.index x st)

/-- `Line::draw` (chunked) only modifies cells inside the line's extent,
preserves `index + remaining`, never moves the index backwards and never
increases the remaining width. -/
theorem draw_within (w : WidthFn) (st : Style) (ch : List (List UChar)) :
    ∀ (l : LineSt) (b : Buffer),
      (∀ j, (LineSt.draw w st ch l b).2.content.getD j defaultCell
          ≠ b.content.getD j defaultCell →
        l.index ≤ j ∧ j < l.index + l.remaining) ∧
      (LineSt.draw w st ch l b).1.index + (LineSt.draw w st ch l b).1.remaining
          = l.index + l.remaining ∧
      l.index ≤ (LineSt.draw w st ch l b).1.index ∧
      (LineSt.draw w st ch l b).1.remaining ≤ l.remaining := by
  induction ch with
  | nil => intro l b; simp [LineSt.draw]
  | cons s rest ih =>
      intro l b
      have hd : LineSt.draw w st (s :: rest) l b
          = LineSt.draw w st rest (writeStr w st s l b).1 (writeStr w st s l b).2 := rfl
      obtain ⟨hw1, hw2, hw3⟩ := writeStr_state w st s l b
      obtain ⟨ih1, ih2, ih3, ih4⟩ := ih (writeStr w st s l b).1 (writeStr w st s l b).2
      rw [hd]
      refine ⟨?_, by omega, by omega, by omega⟩
      intro j hj
      by_cases hmid : (LineSt.draw w st rest (writeStr w st s l b).1
          (writeStr w st s l b).2).2.content.getD j defaultCell
          = (writeStr w st s l b).2.content.getD j defaultCell
      · have := writeStr_within w st s l b j (by rw [← hmid]; exact hj)
        omega
      · have := ih1 j hmid
        omega

/-- `Line::rdraw` keeps the start index, decreases the remaining width by
exactly the clamped text width (no underflow), and only modifies cells
inside the line's extent. -/
theorem rdraw_facts (w : WidthFn) (st : Style) (ch : List (List UChar))
    (l : LineSt) (b : Buffer) :
    (LineSt.rdraw w st ch l b).1.index = l.index ∧
    (LineSt.rdraw w st ch l b).1.remaining + min (dispWidth w ch) l.remaining
        = l.remaining ∧
    (∀ j, (LineSt.rdraw w st ch l b).2.content.getD j defaultCell
        ≠ b.content.getD j defaultCell →
      l.index ≤ j ∧ j < l.index + l.remaining) := by
  have hfit : min (dispWidth w ch) l.remaining ≤ l.remaining := Nat.min_le_right _ _
  obtain ⟨hd1, _, _, _⟩ := draw_within w st ch
    ⟨l.index + l.remaining - min (dispWidth w ch) l.remaining,
      min (dispWidth w ch) l.remaining⟩ b
  refine ⟨rfl, ?_, ?_⟩
  · show l.remaining - min (dispWidth w ch) l.remaining
        + min (dispWidth w ch) l.remaining = l.remaining
    omega
  · intro j hj
    have := hd1 j hj
    simp only at this
    omega

/-- Per-operation bounds: any `draw`/`rdraw` writes only inside the
line's current extent and only shrinks the extent. -/
theorem applyOp_facts (w : WidthFn) (op : LineOp) (l : LineSt) (b : Buffer) :
    (∀ j, (applyOp w op l b).2.content.getD j defaultCell
        ≠ b.content.getD j defaultCell →
      l.index ≤ j ∧ j < l.index + l.remaining) ∧
    l.index ≤ (applyOp w op l b).1.index ∧
    (applyOp w op l b).1.index + (applyOp w op l b).1.remaining
        ≤ l.index + l.remaining := by
  cases op with
  | draw ch st =>
      obtain ⟨h1, h2, h3, h4⟩ := draw_within w st ch l b
      simp only [applyOp]
      exact ⟨h1, h3, by omega⟩
  | rdraw ch st =>
      obtain ⟨h1, h2, h3⟩ := rdraw_facts w st ch l b
      simp only [applyOp]
      exact ⟨h3, by omega, by omega⟩

/-- Any sequence of line operations writes only inside the initial
extent of the line. -/
theorem applyOps_within (w : WidthFn) (ops : List LineOp) :
    ∀ (l : LineSt) (b : Buffer) (j : Nat),
      (applyOps w ops l b).2.content.getD j defaultCell
          ≠ b.content.getD j defaultCell →
      l.index ≤ j ∧ j < l.index + l.remaining := by
  induction ops with
  | nil => intro l b j h; simp [applyOps] at h
  | cons op ops ih =>
      intro l b j h
      obtain ⟨h1, h2, h3⟩ := applyOp_facts w op l b
      by_cases hmid : (applyOps w ops (applyOp w op l b).1
          (applyOp w op l b).2).2.content.getD j defaultCell
          = (applyOp w op l b).2.content.getD j defaultCell
      · have := h1 j (by rw [← hmid]; exact h)
        omega
      · have := ih (applyOp w op l b).1 (applyOp w op l b).2 j hmid
        omega

/-- Claim C10: starting from a line with index `i0` and remaining width
`w0`, any sequence of `draw`/`rdraw` calls writes only to cells with
indices in `[i0, i0 + w0)`; `draw` preserves `index + remaining`, and
`rdraw` keeps the index and decreases the remaining width by exactly the
clamped text width, never underflowing it. -/
theorem C10_line_bounds :
    (∀ (w : WidthFn) (ops : List LineOp) (l : LineSt) (b : Buffer) (j : Nat),
      (applyOps w ops l b).2.content.getD j defaultCell
          ≠ b.content.getD j defaultCell →
      l.index ≤ j ∧ j < l.index + l.remaining) ∧
    (∀ (w : WidthFn) (st : Style) (ch : List (List UChar)) (l : LineSt) (b : Buffer),
      (LineSt.draw w st ch l b).1.index + (LineSt.draw w st ch l b).1.remaining
        = l.index + l.remaining) ∧
    (∀ (w : WidthFn) (st : Style) (ch : List (List UChar)) (l : LineSt) (b : Buffer),
      (LineSt.rdraw w st ch l b).1.index = l.index ∧
      (LineSt.rdraw w st ch l b).1.remaining + min (dispWidth w ch) l.remaining
        = l.remaining) :=
  ⟨fun w ops => applyOps_within w ops,
   fun w st ch l b => (draw_within w st ch l b).2.1,
   fun w st ch l b => ⟨(rdraw_facts w st ch l b).1, (rdraw_facts w st ch l b).2.1⟩⟩

/-- Witness for C10: drawing `a` on a line at index 2 with width 3 over a
6-cell buffer changes cell 2, which indeed lies in `[2, 2 + 3)`. -/
theorem C10_line_bounds_witness : (2 : Nat) ≤ 2 ∧ (2 : Nat) < 2 + 3 :=
  C10_line_bounds.1 wModel [.draw [[97]] Style.noStyle] ⟨2, 3⟩ (Buffer.empty 6 1) 2
    (by decide)

/-- Claim C3 (amended): within one `write_str` call — one formatting
chunk — the first character whose width exceeds the remaining width stops
that call: it is not partially emitted and the rest of the chunk is
dropped, so for a text delivered as a single chunk (a plain string,
which `Display` writes in one `write_str` call) only the fitting prefix
is written.  A later chunk of the same `draw` call resumes the loop,
because the `Writer` keeps no termination flag (see the
counterexample). -/
theorem C3_truncation_amended :
    (∀ (w : WidthFn) (st : Style) (s1 : List UChar) (c : UChar) (s2 : List UChar)
        (l : LineSt) (b : Buffer),
      writeAll w s1 l.remaining = true →
      (writeStr w st s1 l b).1.remaining < w c →
      writeStr w st (s1 ++ c :: s2) l b = writeStr w st s1 l b) ∧
    (∀ (w : WidthFn) (st : Style) (s : List UChar) (l : LineSt) (b : Buffer),
      LineSt.draw w st [s] l b = writeStr w st s l b) := by
  constructor
  · intro w st s1 c s2
    induction s1 with
    | nil =>
        intro l b _ h2
        simp only [writeStr, List.nil_append] at h2 ⊢
        by_cases h0 : w c = 0
        · rw [h0] at h2; exact absurd h2 (Nat.not_lt_zero _)
        · simp [writeStr, h0, h2]
    | cons x xs ih =>
        intro l b h1 h2
        by_cases h0 : w x = 0
        · simp only [writeAll, if_pos h0] at h1
          simp only [writeStr, List.cons_append, if_pos h0] at h2 ⊢
          exact ih l b h1 h2
        · by_cases hlt : l.remaining < w x
          · simp [writeAll, h0, hlt] at h1
          · simp only [writeAll, if_neg h0, if_neg hlt] at h1
            simp only [writeStr, List.cons_append, if_neg h0, if_neg hlt] at h2 ⊢
            exact ih ⟨l.index + w x, l.remaining - w x⟩ (b.char_at l.index x st) h1 h2
  · intro w st s l b
    rfl

/-- Counterexample to C3 as stated: for a two-chunk display text, the
first chunk's character `コ` (width 2) exceeds the remaining width 1, yet
the next chunk's `a` is still written — drawing does not terminate
entirely at the first over-wide character. -/
theorem C3_chunk_resume_cex :
    1 < wModel 12467 ∧ (⟨0, 1⟩ : LineSt).remaining < wModel 12467 ∧
    ((LineSt.draw wModel Style.noStyle [[12467], [97]] ⟨0, 1⟩
        (Buffer.empty 1 1)).2.content.getD 0 defaultCell).char = 97 := by
  decide

/-- Witness for the amended C3: `"a" ++ "コ" ++ "b"` as one chunk on a
width-2 line writes only the prefix `"a"`. -/
theorem C3_truncation_witness :
    writeStr wModel Style.noStyle ([97] ++ 12467 :: [98]) ⟨0, 2⟩ (Buffer.empty 2 1)
      = writeStr wModel Style.noStyle [97] ⟨0, 2⟩ (Buffer.empty 2 1) :=
  C3_truncation_amended.1 wModel Style.noStyle [97] 12467 [98] ⟨0, 2⟩
    (Buffer.empty 2 1) (by decide) (by decide)

/-- Claim C7: a zero-display-width character in a drawn text writes to no
cell, consumes no width and does not stop drawing — the result (line
state and buffer) is identical to drawing the text with that character
removed, wherever the character sits in the chunk stream. -/
theorem C7_zero_width (w : WidthFn) (st : Style) (pre : List (List UChar))
    (s1 : List UChar) (c : UChar) (s2 : List UChar) (post : List (List UChar))
    (l : LineSt) (b : Buffer) (h : w c = 0) :
    LineSt.draw w st (pre ++ (s1 ++ c :: s2) :: post) l b
      = LineSt.draw w st (pre ++ (s1 ++ s2) :: post) l b := by
  simp only [LineSt.draw, List.foldl_append, List.foldl_cons]
  rw [writeStr_skip_zero_width w st c s2 h s1]

/-- Witness for C7: drawing `"a\u{1}b"` equals drawing `"ab"`. -/
theorem C7_zero_width_witness :
    LineSt.draw wModel Style.noStyle [[97, 1, 98]] ⟨0, 5⟩ (Buffer.empty 5 1)
      = LineSt.draw wModel Style.noStyle [[97, 98]] ⟨0, 5⟩ (Buffer.empty 5 1) :=
  C7_zero_width wModel Style.noStyle [] [97] 1 [98] [] ⟨0, 5⟩ (Buffer.empty 5 1)
    (by decide)

/-- Claim C4: on a buffer whose length invariant holds, `index_of` and
`pos_of` are mutual inverses on in-bounds inputs, and both signal a
contract violation (modelled by `none`) on out-of-bounds input instead
of returning silently. -/
theorem C4_coord_inverse (b : Buffer) (hlen : b.content.length = b.nb_col * b.nb_row) :
    (∀ x y, x < b.nb_col → y < b.nb_row →
      ∃ i, b.index_of x y = some i ∧ b.pos_of i = some (x, y)) ∧
    (∀ i, i < b.nb_col * b.nb_row →
      ∃ x y, b.pos_of i = some (x, y) ∧ b.index_of x y = some i) ∧
    (∀ x y, ¬(x < b.nb_col ∧ y < b.nb_row) → b.index_of x y = Option.none) ∧
    (∀ i, ¬ i < b.content.length → b.pos_of i = Option.none) := by
  refine ⟨?_, ?_, ?_, ?_⟩
  · intro x y hx hy
    have hc : 0 < b.nb_col := Nat.lt_of_le_of_lt (Nat.zero_le x) hx
    refine ⟨y * b.nb_col + x, ?_, ?_⟩
    · simp [Buffer.index_of, hx, hy]
    · have hlt : y * b.nb_col + x < b.nb_col * b.nb_row := by
        have h1 : y * b.nb_col + x < (y + 1) * b.nb_col := by
          rw [Nat.succ_mul]; omega
        have h2 : (y + 1) * b.nb_col ≤ b.nb_row * b.nb_col :=
          Nat.mul_le_mul_right _ (Nat.succ_le_of_lt hy)
        rw [Nat.mul_comm b.nb_col b.nb_row]
        exact Nat.lt_of_lt_of_le h1 h2
      have hmod : (y * b.nb_col + x) % b.nb_col = x := by
        rw [Nat.mul_comm y b.nb_col, Nat.mul_add_mod, Nat.mod_eq_of_lt hx]
      have hdiv : (y * b.nb_col + x) / b.nb_col = y := by
        rw [Nat.mul_comm y b.nb_col, Nat.mul_add_div hc, Nat.div_eq_of_lt hx]
        omega
      simp [Buffer.pos_of, hlen, hlt, hmod, hdiv]
  · intro i hi
    have hc : 0 < b.nb_col := by
      rcases Nat.eq_zero_or_pos b.nb_col with h0 | h
      · rw [h0] at hi; simp at hi
      · exact h
    refine ⟨i % b.nb_col, i / b.nb_col, ?_, ?_⟩
    · simp [Buffer.pos_of, hlen, hi]
    · have hx : i % b.nb_col < b.nb_col := Nat.mod_lt _ hc
      have hy : i / b.nb_col < b.nb_row := by
        rw [Nat.div_lt_iff_lt_mul hc, Nat.mul_comm]
        exact hi
      have hval : i / b.nb_col * b.nb_col + i % b.nb_col = i := by
        rw [Nat.mul_comm]
        exact Nat.div_add_mod i b.nb_col
      simp [Buffer.index_of, hx, hy, hval]
  · intro x y h
    simp only [Buffer.index_of, if_neg h]
  · intro i h
    simp only [Buffer.pos_of, if_neg h]

/-- Witness for C4 on a concrete 3x2 buffer. -/
theorem C4_coord_inverse_witness :
    ∃ i, (Buffer.empty 3 2).index_of 2 1 = some i ∧
      (Buffer.empty 3 2).pos_of i = some (2, 1) :=
  (C4_coord_inverse (Buffer.empty 3 2) (by decide)).1 2 1 (by decide) (by decide)

/-- Claim C5: `SplitBuilder::apply` partitions the rectangle along the
chosen axis into two non-overlapping sub-rectangles with exactly `gap`
rows (vertical) or columns (horizontal) between them; with
`s = size - gap` the first part gets `s / 2` and the second
`s / 2 + s % 2`; the height-5/gap-1 example from the spec is included. -/
theorem C5_split_partition (a : Area) (gap : Nat) :
    (gap ≤ a.h →
      (SplitBuilder.apply ⟨a, true, gap⟩).first.x = a.x ∧
      (SplitBuilder.apply ⟨a, true, gap⟩).first.y = a.y ∧
      (SplitBuilder.apply ⟨a, true, gap⟩).first.w = a.w ∧
      (SplitBuilder.apply ⟨a, true, gap⟩).first.h = (a.h - gap) / 2 ∧
      (SplitBuilder.apply ⟨a, true, gap⟩).second.x = a.x ∧
      (SplitBuilder.apply ⟨a, true, gap⟩).second.w = a.w ∧
      (SplitBuilder.apply ⟨a, true, gap⟩).second.h = (a.h - gap) / 2 + (a.h - gap) % 2 ∧
      (SplitBuilder.apply ⟨a, true, gap⟩).first.y + (SplitBuilder.apply ⟨a, true, gap⟩).first.h
        + gap = (SplitBuilder.apply ⟨a, true, gap⟩).second.y ∧
      (SplitBuilder.apply ⟨a, true, gap⟩).second.y + (SplitBuilder.apply ⟨a, true, gap⟩).second.h
        = a.y + a.h) ∧
    (gap ≤ a.w →
      (SplitBuilder.apply ⟨a, false, gap⟩).first.y = a.y ∧
      (SplitBuilder.apply ⟨a, false, gap⟩).first.x = a.x ∧
      (SplitBuilder.apply ⟨a, false, gap⟩).first.h = a.h ∧
      (SplitBuilder.apply ⟨a, false, gap⟩).first.w = (a.w - gap) / 2 ∧
      (SplitBuilder.apply ⟨a, false, gap⟩).second.y = a.y ∧
      (SplitBuilder.apply ⟨a, false, gap⟩).second.h = a.h ∧
      (SplitBuilder.apply ⟨a, false, gap⟩).second.w = (a.w - gap) / 2 + (a.w - gap) % 2 ∧
      (SplitBuilder.apply ⟨a, false, gap⟩).first.x + (SplitBuilder.apply ⟨a, false, gap⟩).first.w
        + gap = (SplitBuilder.apply ⟨a, false, gap⟩).second.x ∧
      (SplitBuilder.apply ⟨a, false, gap⟩).second.x + (SplitBuilder.apply ⟨a, false, gap⟩).second.w
        = a.x + a.w) ∧
    SplitBuilder.apply ⟨⟨0, 0, 4, 5⟩, true, 1⟩ = ⟨⟨0, 0, 4, 2⟩, ⟨0, 3, 4, 2⟩⟩ := by
  refine ⟨?_, ?_, by decide⟩
  · intro h
    simp [SplitBuilder.apply] <;> omega
  · intro h
    simp [SplitBuilder.apply] <;> omega

/-- Witness for C5: a vertical split of a height-7 rectangle with gap 2
ends exactly at the bottom of the original rectangle. -/
theorem C5_split_partition_witness :
    (SplitBuilder.apply ⟨⟨1, 2, 3, 7⟩, true, 2⟩).second.y
      + (SplitBuilder.apply ⟨⟨1, 2, 3, 7⟩, true, 2⟩).second.h = 2 + 7 :=
  ((C5_split_partition ⟨1, 2, 3, 7⟩ 2).1 (by decide)).2.2.2.2.2.2.2.2

/-- The stateful loop of `Buffer::diff` equals a position-wise filter:
position `j` is emitted iff `emitB` holds there, with coordinates
computed by the `u16` formulas from the enumeration index. -/
theorem diffGo_characterization (w : WidthFn) (ncol : Nat) :
    ∀ (next prev : List Cell) (i : Nat) (skip : Bool), next.length = prev.length →
      diffGo w ncol i skip next prev
        = ((List.range next.length).filter (emitB w next prev skip)).map
            (fun j => (u16x ncol (i + j), u16y ncol (i + j), next.getD j defaultCell)) := by
  intro next
  induction next with
  | nil => intro prev i skip _; simp [diffGo]
  | cons c cs ih =>
      intro prev i skip h
      cases prev with
      | nil => simp at h
      | cons p ps =>
          have hlen : cs.length = ps.length := by simpa using h
          have hrec := ih ps (i + 1) (decide (1 < w c.char)) hlen
          show (cond (decide (c ≠ p) && !skip) [(u16x ncol i, u16y ncol i, c)] [])
              ++ diffGo w ncol (i + 1) (decide (1 < w c.char)) cs ps = _
          rw [hrec]
          have hq0 : emitB w (c :: cs) (p :: ps) skip 0 = (decide (c ≠ p) && !skip) := rfl
          have hdec : decide (w c.char ≤ 1) = !decide (1 < w c.char) := by
            calc decide (w c.char ≤ 1) = decide (¬ 1 < w c.char) :=
                  decide_eq_decide.mpr Nat.not_lt.symm
              _ = !decide (1 < w c.char) := decide_not
          have hpred : (emitB w (c :: cs) (p :: ps) skip) ∘ Nat.succ
              = emitB w cs ps (decide (1 < w c.char)) := by
            funext j
            cases j with
            | zero =>
                show (decide (cs.getD 0 defaultCell ≠ ps.getD 0 defaultCell)
                    && decide (w c.char ≤ 1))
                  = (decide (cs.getD 0 defaultCell ≠ ps.getD 0 defaultCell)
                    && !decide (1 < w c.char))
                rw [hdec]
            | succ k => rfl
          have hF : (fun j => (u16x ncol (i + j), u16y ncol (i + j),
                (c :: cs).getD j defaultCell)) ∘ Nat.succ
              = fun j => (u16x ncol (i + 1 + j), u16y ncol (i + 1 + j),
                cs.getD j defaultCell) := by
            funext j
            have hij : i + (j + 1) = i + 1 + j := by omega
            show (u16x ncol (i + (j + 1)), u16y ncol (i + (j + 1)),
                (c :: cs).getD (j + 1) defaultCell)
              = (u16x ncol (i + 1 + j), u16y ncol (i + 1 + j), cs.getD j defaultCell)
            rw [hij, List.getD_cons_succ]
          cases hb : (decide (c ≠ p) && !skip) with
          | false =>
              rw [List.length_cons, List.range_succ_eq_map, List.filter_cons, hq0, hb,
                if_neg Bool.false_ne_true, List.filter_map, hpred, List.map_map, hF]
              rfl
          | true =>
              rw [List.length_cons, List.range_succ_eq_map, List.filter_cons, hq0, hb,
                if_pos rfl, List.filter_map, hpred, List.map_cons, List.map_map, hF]
              rfl

/-- Claim C1: for equal-dimension buffers, `Buffer::diff` emits an entry
exactly at the positions `j` where the cells differ and the skip flag is
clear — the skip flag at `j + 1` being set precisely when the *new*
buffer's cell at `j` has display width greater than 1 (`emitB`).  The
emitted entries follow the row-major iteration order (the emission
positions are the strictly increasing filtered enumeration indices, from
which the coordinates are computed), and no entry is ever emitted at the
position immediately following a wide character of the new buffer. -/
theorem C1_diff_emission (w : WidthFn) (self other : Buffer)
    (hc : self.nb_col = other.nb_col) (hr : self.nb_row = other.nb_row)
    (hl1 : self.content.length = self.nb_col * self.nb_row)
    (hl2 : other.content.length = other.nb_col * other.nb_row) :
    Buffer.diff w self other
      = ((List.range other.content.length).filter
          (emitB w other.content self.content false)).map
          (fun j => (u16x self.nb_col j, u16y self.nb_col j,
            other.content.getD j defaultCell)) ∧
    ((List.range other.content.length).filter
        (emitB w other.content self.content false)).Pairwise (· < ·) ∧
    ∀ j, 1 < w (other.content.getD j defaultCell).char →
      emitB w other.content self.content false (j + 1) = false := by
  have hlen : other.content.length = self.content.length := by
    rw [hl1, hl2, hc, hr]
  refine ⟨?_, ?_, ?_⟩
  · have hchar := diffGo_characterization w self.nb_col other.content self.content
      0 false hlen
    show diffGo w self.nb_col 0 false other.content self.content = _
    rw [hchar]
    congr 1
    funext j
    rw [Nat.zero_add]
  · exact (List.pairwise_lt_range _).filter _
  · intro j hj
    have hne : decide (w (other.content.getD j defaultCell).char ≤ 1) = false :=
      decide_eq_false_iff_not.mpr (by omega)
    show (decide (other.content.getD (j + 1) defaultCell
          ≠ self.content.getD (j + 1) defaultCell)
        && decide (w (other.content.getD j defaultCell).char ≤ 1)) = false
    rw [hne, Bool.and_false]

/-- Witness for C1 on concrete 2x1 buffers differing in the first cell. -/
theorem C1_diff_emission_witness :
    Buffer.diff wModel bufPrevW bufNextW
      = ((List.range bufNextW.content.length).filter
          (emitB wModel bufNextW.content bufPrevW.content false)).map
          (fun j => (u16x bufPrevW.nb_col j, u16y bufPrevW.nb_col j,
            bufNextW.content.getD j defaultCell)) :=
  (C1_diff_emission wModel bufPrevW bufNextW rfl rfl (by decide) (by decide)).1

/-- Running `Buffer::diff`'s loop over an equal, narrow-character run of
cells emits nothing and advances the index past the run with the skip
flag clear. -/
theorem diffGo_equal_run (w : WidthFn) (ncol : Nat) :
    ∀ (l next prev : List Cell) (i : Nat), (∀ c ∈ l, w c.char ≤ 1) →
      diffGo w ncol i false (l ++ next) (l ++ prev)
        = diffGo w ncol (i + l.length) false next prev := by
  intro l
  induction l with
  | nil => intro next prev i _; simp
  | cons c t ih =>
      intro next prev i h
      have hc : w c.char ≤ 1 := h c (List.mem_cons_self c t)
      have hskip : decide (1 < w c.char) = false :=
        decide_eq_false_iff_not.mpr (by omega)
      have hcc : decide (c ≠ c) = false := decide_eq_false_iff_not.mpr (by simp)
      show (cond (decide (c ≠ c) && !false) [(u16x ncol i, u16y ncol i, c)] [])
          ++ diffGo w ncol (i + 1) (decide (1 < w c.char)) (t ++ next) (t ++ prev)
        = diffGo w ncol (i + (c :: t).length) false next prev
      rw [hcc, hskip, ih next prev (i + 1) (fun x hx => h x (List.mem_cons_of_mem _ hx))]
      have : i + 1 + t.length = i + (c :: t).length := by
        rw [List.length_cons]; omega
      rw [this]
      rfl

/-- Claim C9: the emitted coordinates of `Buffer::diff` are computed in
16-bit arithmetic (`u16x`/`u16y`); whenever the cell index and the column
count fit in 16 bits these formulas agree with `pos_of`, but on a larger
buffer (1 column, 2^16 + 1 rows, differing at cell index 2^16) the index
wraps modulo 2^16 and the emitted coordinates `(0, 0)` disagree with the
cell's true position `(0, 65536)`. -/
theorem C9_u16_coords :
    (∀ i ncol, i < 65536 → 0 < ncol → ncol < 65536 →
      u16x ncol i = i % ncol ∧ u16y ncol i = i / ncol) ∧
    Buffer.diff wModel bigPrev bigNext = [(0, 0, cellA)] ∧
    bigNext.pos_of 65536 = some (0, 65536) ∧
    ((0 : Nat), (0 : Nat)) ≠ ((65536 : Nat) % 1, (65536 : Nat) / 1) ∧
    u16x 1 65536 = 0 ∧ u16y 1 65536 = 0 := by
  refine ⟨?_, ?_, ?_, by decide, by decide, by decide⟩
  · intro i ncol h1 h2 h3
    constructor
    · show i % 65536 % (ncol % 65536) = i % ncol
      rw [Nat.mod_eq_of_lt h1, Nat.mod_eq_of_lt h3]
    · show i % 65536 / (ncol % 65536) = i / ncol
      rw [Nat.mod_eq_of_lt h1, Nat.mod_eq_of_lt h3]
  · have h65537 : (65537 : Nat) = 65536 + 1 := by norm_num
    have hprev : bigPrev.content = List.replicate 65536 defaultCell ++ [defaultCell] := by
      show List.replicate 65537 defaultCell = _
      rw [h65537, List.replicate_succ']
    have hmem : ∀ c ∈ List.replicate 65536 defaultCell, wModel c.char ≤ 1 := by
      intro c hcmem
      rw [List.eq_of_mem_replicate hcmem]
      decide
    show diffGo wModel bigPrev.nb_col 0 false bigNext.content bigPrev.content = _
    rw [show bigNext.content = List.replicate 65536 defaultCell ++ [cellA] from rfl,
      hprev, diffGo_equal_run wModel bigPrev.nb_col _ _ _ 0 hmem,
      List.length_replicate, Nat.zero_add]
    decide
  · have hlen : bigNext.content.length = 65537 := by
      show (List.replicate 65536 defaultCell ++ [cellA]).length = 65537
      rw [List.length_append, List.length_replicate]
      decide
    unfold Buffer.pos_of
    rw [hlen]
    decide

/-- Witness for C9's in-range part at index 3, 2 columns. -/
theorem C9_u16_coords_witness : u16x 2 3 = 3 % 2 ∧ u16y 2 3 = 3 / 2 :=
  C9_u16_coords.1 3 2 (by decide) (by decide) (by decide)

/-- Mapping an everywhere-defined partial function over a list succeeds
and equals its `filterMap`, without dropping any element. -/
theorem mapM_some {α β : Type} (g : α → Option β) :
    ∀ l : List α, (∀ a ∈ l, (g a).isSome = true) →
      l.mapM g = some (l.filterMap g) ∧ (l.filterMap g).length = l.length := by
  intro l
  induction l with
  | nil => intro _; exact ⟨rfl, rfl⟩
  | cons a t ih =>
      intro h
      obtain ⟨b, hb⟩ := Option.isSome_iff_exists.mp (h a (List.mem_cons_self a t))
      obtain ⟨ihm, ihl⟩ := ih (fun x hx => h x (List.mem_cons_of_mem _ hx))
      constructor
      · rw [List.mapM_cons, hb, ihm, List.filterMap_cons_some hb]
        rfl
      · rw [List.filterMap_cons_some hb, List.length_cons, List.length_cons, ihl]

/-- Claim C6: for every pair of modifier sets (subsets of the six known
flags, hence `< 64`), `Modifier::diff` emits the bits of `from - to` in
ascending bit order (each producing exactly one disable instruction) and
then the bits of `to - from` in ascending bit order (each producing
exactly one enable instruction), and nothing else; `specBits` is the
spec-side ascending enumeration of the set bits, and the `filterMap`
length equations say that every enumerated bit produced exactly one
instruction. -/
theorem C6_modifier_diff :
    (∀ f < 64, ∀ t < 64,
      Modifier.diff f t
        = some (((specBits (msub f t)).filterMap removedAttr)
            ++ ((specBits (msub t f)).filterMap addedAttr)) ∧
      ((specBits (msub f t)).filterMap removedAttr).length
          = (specBits (msub f t)).length ∧
      ((specBits (msub t f)).filterMap addedAttr).length
          = (specBits (msub t f)).length) ∧
    (∀ n : Nat, (specBits n).Pairwise (· < ·)) := by
  have hIter : ∀ n < 64, iterBits n = specBits n := by decide
  have hBits : ∀ n < 64, ∀ b ∈ specBits n,
      (removedAttr b).isSome = true ∧ (addedAttr b).isSome = true := by decide
  have hSub : ∀ f t : Nat, f < 64 → msub f t < 64 := by
    intro f t hf
    exact Nat.lt_of_le_of_lt Nat.and_le_left hf
  constructor
  · intro f hf t ht
    obtain ⟨hm1, hl1⟩ := mapM_some removedAttr (specBits (msub f t))
      (fun b hb => (hBits (msub f t) (hSub f t hf) b hb).1)
    obtain ⟨hm2, hl2⟩ := mapM_some addedAttr (specBits (msub t f))
      (fun b hb => (hBits (msub t f) (hSub t f ht) b hb).2)
    refine ⟨?_, hl1, hl2⟩
    show Modifier.diff f t = _
    unfold Modifier.diff
    rw [hIter (msub f t) (hSub f t hf), hIter (msub t f) (hSub t f ht), hm1, hm2]
    rfl
  intro n
  have hmap : ∀ l : List Nat,
      l.filterMap (fun k => if n.testBit k then some (2 ^ k) else Option.none)
        = (l.filter (fun k => n.testBit k)).map (2 ^ ·) := by
    intro l
    induction l with
    | nil => rfl
    | cons a t ih =>
        by_cases ha : n.testBit a
        · simp [List.filterMap_cons, List.filter_cons, ha, ih]
        · simp [List.filterMap_cons, List.filter_cons, ha, ih]
  show ((List.range 6).filterMap
      (fun k => if n.testBit k then some (2 ^ k) else Option.none)).Pairwise (· < ·)
  rw [hmap]
  refine List.Pairwise.map _ ?_ ((List.pairwise_lt_range 6).filter _)
  intro a b hab
  exact Nat.pow_lt_pow_right (by norm_num) hab

/-- Witness for C6 at `from = BOLD | UNDERLINED = 9`, `to = BOLD | DIM = 3`:
the diff disables UNDERLINED then enables DIM. -/
theorem C6_modifier_diff_witness :
    Modifier.diff 9 3
      = some (((specBits (msub 9 3)).filterMap removedAttr)
          ++ ((specBits (msub 3 9)).filterMap addedAttr)) :=
  (C6_modifier_diff.1 9 (by decide) 3 (by decide)).1

/-- `Canvas::top`: the returned line's width is at most the area's width,
and the buffer, the area's `x` and the area's `w` are unchanged. -/
theorem top_facts (c : Canvas) :
    (c.top).1.remaining ≤ c.area.w ∧ (c.top).2.buf = c.buf ∧
    (c.top).2.area.x = c.area.x ∧ (c.top).2.area.w = c.area.w := by
  unfold Canvas.top Area.consume
  by_cases hh : 0 < c.area.h
  · simp [hh]
  · simp [hh]

/-- A line produced by `Canvas::top` of an area lying inside the buffer
is confined to one buffer row. -/
theorem top_inrow (c : Canvas) (h1 : c.area.x + c.area.w ≤ c.buf.nb_col)
    (h2 : 0 < c.buf.nb_col) : InRow c.buf.nb_col (c.top).1 := by
  unfold Canvas.top
  by_cases hh : 0 < c.area.h
  · simp only [if_pos hh]
    show c.area.y * c.buf.nb_col + c.area.x + c.area.w
        ≤ ((c.area.y * c.buf.nb_col + c.area.x) / c.buf.nb_col) * c.buf.nb_col
          + c.buf.nb_col
    have hq : c.area.y ≤ (c.area.y * c.buf.nb_col + c.area.x) / c.buf.nb_col :=
      (Nat.le_div_iff_mul_le h2).mpr (Nat.le_add_right _ _)
    have hm : c.area.y * c.buf.nb_col
        ≤ ((c.area.y * c.buf.nb_col + c.area.x) / c.buf.nb_col) * c.buf.nb_col :=
      Nat.mul_le_mul_right _ hq
    omega
  · simp only [if_neg hh]
    show (0 : Nat) + 0 ≤ (0 / c.buf.nb_col) * c.buf.nb_col + c.buf.nb_col
    simp

/-- The inner loop of `Canvas::wrap` preserves the buffer's column
count. -/
theorem wrapInner_ncol (w : WidthFn) (st : Style) :
    ∀ (segs : List (List UChar)) (l : LineSt) (b : Buffer),
      (wrapInner w st segs l b).2.2.1.nb_col = b.nb_col := by
  intro segs
  induction segs with
  | nil => intro l b; rfl
  | cons s rest ih =>
      intro l b
      by_cases hfit : segWidth w s < l.remaining
      · simp only [wrapInner, if_pos hfit]
        rw [ih, writeStr_ncol]
      · simp [wrapInner, hfit]

/-- Every `(segment, line)` pair the inner wrap loop draws satisfies the
strict fit test, keeps the initial width bound, and its line is confined
to one row. -/
theorem wrapInner_trace (w : WidthFn) (st : Style) (ncol W : Nat) (h2 : 0 < ncol) :
    ∀ (segs : List (List UChar)) (l : LineSt) (b : Buffer),
      InRow ncol l → l.remaining ≤ W →
      ∀ sl ∈ (wrapInner w st segs l b).2.2.2,
        segWidth w sl.1 < sl.2.remaining ∧ sl.2.remaining ≤ W ∧ InRow ncol sl.2 := by
  intro segs
  induction segs with
  | nil => intro l b _ _ sl hsl; simp [wrapInner] at hsl
  | cons s rest ih =>
      intro l b hrow hW sl hsl
      by_cases hfit : segWidth w s < l.remaining
      · simp only [wrapInner, if_pos hfit] at hsl
        rcases List.mem_cons.mp hsl with heq | htail
        · subst heq
          exact ⟨hfit, hW, hrow⟩
        · obtain ⟨hs1, hs2, hs3⟩ := writeStr_state w st s l b
          have hdm : (l.index / ncol) * ncol
              ≤ ((writeStr w st s l b).1.index / ncol) * ncol :=
            Nat.mul_le_mul_right _ (Nat.div_le_div_right hs2)
          have hrow' : InRow ncol (writeStr w st s l b).1 := by
            unfold InRow at hrow ⊢
            omega
          have hW' : (writeStr w st s l b).1.remaining ≤ W := le_trans hs3 hW
          exact ih (writeStr w st s l b).1 (writeStr w st s l b).2 hrow' hW' sl htail
      · simp [wrapInner, hfit] at hsl

/-- Every `(segment, line)` pair traced by `Canvas::wrap`'s outer loop
satisfies the strict fit test against its line, whose width is bounded by
the canvas width and which is confined to one buffer row. -/
theorem wrapGo_trace (w : WidthFn) (st : Style) :
    ∀ (fuel : Nat) (segs : List (List UChar)) (c : Canvas),
      0 < c.buf.nb_col → c.area.x + c.area.w ≤ c.buf.nb_col →
      ∀ sl ∈ (wrapGo w st fuel segs c).2,
        segWidth w sl.1 < sl.2.remaining ∧ sl.2.remaining ≤ c.area.w ∧
        InRow c.buf.nb_col sl.2 := by
  intro fuel
  induction fuel with
  | zero => intro segs c _ _ sl hsl; simp [wrapGo] at hsl
  | succ n ih =>
      intro segs c hpos hxw sl hsl
      obtain ⟨htr, htb, htx, htw⟩ := top_facts c
      have htrow := top_inrow c hxw hpos
      have hinrow : InRow c.buf.nb_col (c.top).1 := htrow
      simp only [wrapGo] at hsl
      cases hq : (wrapInner w st segs (c.top).1 (c.top).2.buf).1.isEmpty with
      | true =>
          rw [hq] at hsl
          simp only [if_true] at hsl
          exact wrapInner_trace w st c.buf.nb_col c.area.w hpos segs (c.top).1
            (c.top).2.buf hinrow htr sl hsl
      | false =>
          rw [hq] at hsl
          simp only [Bool.false_eq_true, if_false] at hsl
          rcases List.mem_append.mp hsl with hin | hrec
          · exact wrapInner_trace w st c.buf.nb_col c.area.w hpos segs (c.top).1
              (c.top).2.buf hinrow htr sl hin
          · have hc'col : ((⟨(c.top).2.area,
                (wrapInner w st segs (c.top).1 (c.top).2.buf).2.2.1⟩ : Canvas)).buf.nb_col
                = c.buf.nb_col := by
              show (wrapInner w st segs (c.top).1 (c.top).2.buf).2.2.1.nb_col
                  = c.buf.nb_col
              rw [wrapInner_ncol, htb]
            have hc'xw : ((⟨(c.top).2.area,
                (wrapInner w st segs (c.top).1 (c.top).2.buf).2.2.1⟩ : Canvas)).area.x
                + ((⟨(c.top).2.area,
                (wrapInner w st segs (c.top).1 (c.top).2.buf).2.2.1⟩ : Canvas)).area.w
                ≤ ((⟨(c.top).2.area,
                (wrapInner w st segs (c.top).1 (c.top).2.buf).2.2.1⟩ : Canvas)).buf.nb_col := by
              show (c.top).2.area.x + (c.top).2.area.w
                  ≤ (wrapInner w st segs (c.top).1 (c.top).2.buf).2.2.1.nb_col
              rw [htx, htw, wrapInner_ncol, htb]
              exact hxw
            have hc'pos : 0 < ((⟨(c.top).2.area,
                (wrapInner w st segs (c.top).1 (c.top).2.buf).2.2.1⟩ : Canvas)).buf.nb_col := by
              rw [hc'col]; exact hpos
            obtain ⟨ha, hb', hin'⟩ := ih (wrapInner w st segs (c.top).1 (c.top).2.buf).1
              ⟨(c.top).2.area, (wrapInner w st segs (c.top).1 (c.top).2.buf).2.2.1⟩
              hc'pos hc'xw sl hrec
            refine ⟨ha, ?_, ?_⟩
            · have : ((⟨(c.top).2.area,
                  (wrapInner w st segs (c.top).1 (c.top).2.buf).2.2.1⟩ : Canvas)).area.w
                  = c.area.w := htw
              rw [this] at hb'
              exact hb'
            · rw [hc'col] at hin'
              exact hin'

/-- If the head segment is at least as wide as the canvas width, the wrap
loop draws nothing: every row fails the strict fit test, the buffer is
untouched and the trace is empty. -/
theorem wrapGo_too_wide (w : WidthFn) (st : Style) :
    ∀ (fuel : Nat) (s : List UChar) (rest : List (List UChar)) (c : Canvas),
      c.area.w ≤ segWidth w s →
      (wrapGo w st fuel (s :: rest) c).1.buf = c.buf ∧
      (wrapGo w st fuel (s :: rest) c).2 = [] := by
  intro fuel
  induction fuel with
  | zero => intro s rest c _; exact ⟨rfl, rfl⟩
  | succ n ih =>
      intro s rest c hws
      obtain ⟨htr, htb, htx, htw⟩ := top_facts c
      have hnfit : ¬ segWidth w s < (c.top).1.remaining := by omega
      have hinner : wrapInner w st (s :: rest) (c.top).1 (c.top).2.buf
          = (s :: rest, (c.top).1, (c.top).2.buf, []) := by
        simp [wrapInner, hnfit]
      have hrec := ih s rest ⟨(c.top).2.area, (c.top).2.buf⟩ (by
        show (c.top).2.area.w ≤ segWidth w s
        rw [htw]; exact hws)
      constructor
      · show (wrapGo w st (n + 1) (s :: rest) c).1.buf = c.buf
        simp only [wrapGo, hinner]
        rw [if_neg (by simp)]
        have : ((⟨(c.top).2.area, (c.top).2.buf⟩ : Canvas)).buf = c.buf := htb
        rw [← this]
        exact hrec.1
      · show (wrapGo w st (n + 1) (s :: rest) c).2 = []
        simp only [wrapGo, hinner]
        rw [if_neg (by simp)]
        simp only [List.nil_append]
        exact hrec.2

/-- Claim C2 (amended): `Canvas::wrap` never splits a word-boundary
segment across rows — every segment it draws passes the strict fit test
on a line confined to one buffer row, is consumed in full, and all cells
it modifies lie in that single row — but a single segment whose display
width is at least the full row width is never drawn at all: the loop
skips every remaining row and leaves the buffer untouched (instead of
letting the segment overflow a row, which the buffer-backed `draw`
could not do anyway). -/
theorem C2_wrap_no_split_amended (w : WidthFn) (st : Style)
    (segs : List (List UChar)) (c : Canvas)
    (h1 : c.area.x + c.area.w ≤ c.buf.nb_col) (h2 : 0 < c.buf.nb_col) :
    (∀ sl ∈ (Canvas.wrap w st segs c).2,
      segWidth w sl.1 < sl.2.remaining ∧
      sl.2.remaining ≤ c.area.w ∧
      (∀ (st' : Style) (b' : Buffer),
        (writeStr w st' sl.1 sl.2 b').1.index = sl.2.index + segWidth w sl.1) ∧
      (∀ (st' : Style) (b' : Buffer) (j : Nat),
        (writeStr w st' sl.1 sl.2 b').2.content.getD j defaultCell
            ≠ b'.content.getD j defaultCell →
        j / c.buf.nb_col = sl.2.index / c.buf.nb_col)) ∧
    (∀ s rest, segs = s :: rest → c.area.w ≤ segWidth w s →
      (Canvas.wrap w st segs c).1.buf = c.buf ∧ (Canvas.wrap w st segs c).2 = []) := by
  constructor
  · intro sl hsl
    obtain ⟨hfit, hrem, hrow⟩ := wrapGo_trace w st c.area.h segs c h2 h1 sl hsl
    refine ⟨hfit, hrem, ?_, ?_⟩
    · intro st' b'
      rw [writeStr_consumes w st' sl.1 sl.2 b' (le_of_lt hfit)]
    · intro st' b' j hj
      have hw := writeStr_within w st' sl.1 sl.2 b' j hj
      have hlow : (sl.2.index / c.buf.nb_col) * c.buf.nb_col ≤ j :=
        le_trans (Nat.div_mul_le_self _ _) hw.1
      have hhigh : j < (sl.2.index / c.buf.nb_col) * c.buf.nb_col + c.buf.nb_col := by
        unfold InRow at hrow
        omega
      have hge : sl.2.index / c.buf.nb_col ≤ j / c.buf.nb_col :=
        (Nat.le_div_iff_mul_le h2).mpr hlow
      have hlt : j / c.buf.nb_col < sl.2.index / c.buf.nb_col + 1 := by
        rw [Nat.div_lt_iff_lt_mul h2, Nat.succ_mul]
        exact hhigh
      omega
  · intro s rest hseg hws
    subst hseg
    exact wrapGo_too_wide w st c.area.h s rest c hws

/-- Counterexample to C2 as stated: wrapping the single 4-wide segment
`"abcd"` on a 3-wide, 2-row canvas leaves the buffer completely
untouched — the over-wide segment is dropped, not drawn overflowing. -/
theorem C2_wide_segment_not_drawn_cex :
    (3 : Nat) ≤ segWidth wModel [97, 98, 99, 100] ∧ cexCanvas.area.w = 3 ∧
    (Canvas.wrap wModel Style.noStyle [[97, 98, 99, 100]] cexCanvas).1.buf
      = cexCanvas.buf := by
  decide

/-- Witness for the amended C2 on the same concrete canvas. -/
theorem C2_wrap_witness :
    (Canvas.wrap wModel Style.noStyle [[97, 98, 99, 100]] cexCanvas).1.buf
        = cexCanvas.buf ∧
    (Canvas.wrap wModel Style.noStyle [[97, 98, 99, 100]] cexCanvas).2 = [] :=
  (C2_wrap_no_split_amended wModel Style.noStyle [[97, 98, 99, 100]] cexCanvas
    (by decide) (by decide)).2 [97, 98, 99, 100] [] rfl (by decide)

/-- Claim C8: after the buffer-rotation step of `Terminal::apply_change`,
the previous buffer holds exactly the cells the just-finished render
produced, and the new draw buffer is entirely default cells with no
cursor position. -/
theorem C8_buffer_rotation (w : WidthFn) (t : Terminal) :
    (Terminal.apply_change w t).2.prev_buffer = t.draw_buffer ∧
    (Terminal.apply_change w t).2.draw_buffer.content
      = List.replicate t.prev_buffer.content.length defaultCell ∧
    (Terminal.apply_change w t).2.draw_buffer.cursor_pos = Option.none := by
  refine ⟨rfl, ?_, rfl⟩
  show t.prev_buffer.content.map Cell.resetCell = _
  induction t.prev_buffer.content with
  | nil => rfl
  | cons c cs ih => simp [List.replicate_succ, ih]; rfl

end Tui
